import Mathlib

/-!
Verification of the `better-culture-jobs` scraper/normalizer service
(`apps/backend/src/services/culture-be-jobs.ts`) against its specification.

The TypeScript source is shallowly embedded below: pure string helpers become
Lean functions on `String`/`List Char`, the stateful sync orchestrator becomes
an explicit pure function from its inputs (scanned listing rows, persisted
store, detail-fetch outcomes) to a `SyncOutcome`, and the asynchronous worker
pool becomes a small-step scheduler over an explicit pool state.  Fallible
JavaScript behaviour (a thrown `TypeError`, a failed detail fetch) is embedded
with `Except` / `Option`.
-/

namespace CultureBe

/-! ## Text normalizer (source lines 102-124) -/

/-- JavaScript's regular-expression class `\s` (the whitespace characters that
`.replace(/\s+/g, ' ')` collapses), including the non-breaking space
` ` that `normalizeText` additionally pre-replaces. -/
def jsWhitespace (c : Char) : Bool :=
  c = ' ' || c = '\t' || c = '\n' || c = '\r' ||
  c.toNat = 0x0b || c.toNat = 0x0c || c.toNat = 0xa0 || c.toNat = 0x1680 ||
  (0x2000 ≤ c.toNat && c.toNat ≤ 0x200a) ||
  c.toNat = 0x2028 || c.toNat = 0x2029 || c.toNat = 0x202f ||
  c.toNat = 0x205f || c.toNat = 0x3000 || c.toNat = 0xfeff

/-- Split a character list into its maximal runs of non-whitespace characters.
`cur` is the run currently being accumulated. -/
def wsTokensAux (cur : List Char) : List Char → List (List Char)
  | [] => if cur.isEmpty then [] else [cur]
  | c :: rest =>
    if jsWhitespace c then
      if cur.isEmpty then wsTokensAux [] rest else cur :: wsTokensAux [] rest
    else
      wsTokensAux (cur ++ [c]) rest

def wsTokens (cs : List Char) : List (List Char) :=
  wsTokensAux [] cs

/-- Body of `normalizeText` on an actual string: replace ` ` by a space
(subsumed: ` ` is `\s`), collapse every whitespace run to a single
space, trim.  Collapsing-plus-trimming is exactly joining the whitespace-
separated tokens with single spaces. -/
def normalizeTextCore (s : String) : String :=
  String.mk (List.intercalate [' '] (wsTokens s.data))

/-- `normalizeText(value: string | undefined | null)`: `value ?? ''` then the
whitespace pipeline. `none` stands for JavaScript `null`/`undefined`. -/
def normalizeText (value : Option String) : String :=
  normalizeTextCore (value.getD "")

/-- JavaScript `String.prototype.trim`. -/
def trimChars (cs : List Char) : List Char :=
  ((cs.dropWhile jsWhitespace).reverse.dropWhile jsWhitespace).reverse

def jsTrim (s : String) : String :=
  String.mk (trimChars s.data)

/-- `normalizeMultilineText`: drop `\r`, split on `\n`, collapse and trim each
line, drop blank lines, rejoin with `\n`, trim. -/
def normalizeMultilineText (value : Option String) : String :=
  let s := ((value.getD "").data.filter (fun c => c ≠ '\r'))
  let lines := s.splitOn '\n'
  let normed := (lines.map (fun l => List.intercalate [' '] (wsTokens l))).filter
    (fun l => !l.isEmpty)
  jsTrim (String.mk (List.intercalate ['\n'] normed))

/-- Character-level model of Unicode NFD decomposition (`value.normalize('NFD')`)
for the Latin-range precomposed characters this French-language source can
meet; any other character decomposes to itself. -/
def nfdChar (c : Char) : List Char :=
  match c with
  | 'à' => ['a', '̀'] | 'á' => ['a', '́'] | 'â' => ['a', '̂']
  | 'ã' => ['a', '̃'] | 'ä' => ['a', '̈'] | 'å' => ['a', '̊']
  | 'è' => ['e', '̀'] | 'é' => ['e', '́'] | 'ê' => ['e', '̂']
  | 'ë' => ['e', '̈']
  | 'ì' => ['i', '̀'] | 'í' => ['i', '́'] | 'î' => ['i', '̂']
  | 'ï' => ['i', '̈']
  | 'ò' => ['o', '̀'] | 'ó' => ['o', '́'] | 'ô' => ['o', '̂']
  | 'õ' => ['o', '̃'] | 'ö' => ['o', '̈']
  | 'ù' => ['u', '̀'] | 'ú' => ['u', '́'] | 'û' => ['u', '̂']
  | 'ü' => ['u', '̈']
  | 'ç' => ['c', '̧'] | 'ñ' => ['n', '̃'] | 'ý' => ['y', '́']
  | 'À' => ['A', '̀'] | 'Á' => ['A', '́'] | 'Â' => ['A', '̂']
  | 'Ã' => ['A', '̃'] | 'Ä' => ['A', '̈'] | 'Å' => ['A', '̊']
  | 'È' => ['E', '̀'] | 'É' => ['E', '́'] | 'Ê' => ['E', '̂']
  | 'Ë' => ['E', '̈']
  | 'Ì' => ['I', '̀'] | 'Í' => ['I', '́'] | 'Î' => ['I', '̂']
  | 'Ï' => ['I', '̈']
  | 'Ò' => ['O', '̀'] | 'Ó' => ['O', '́'] | 'Ô' => ['O', '̂']
  | 'Õ' => ['O', '̃'] | 'Ö' => ['O', '̈']
  | 'Ù' => ['U', '̀'] | 'Ú' => ['U', '́'] | 'Û' => ['U', '̂']
  | 'Ü' => ['U', '̈']
  | 'Ç' => ['C', '̧'] | 'Ñ' => ['N', '̃'] | 'Ý' => ['Y', '́']
  | _ => [c]

/-- Combining diacritical marks range `[̀-ͯ]` stripped by `normalizeKey`. -/
def isCombiningMark (c : Char) : Bool :=
  0x300 ≤ c.toNat && c.toNat ≤ 0x36f

/-- Characters kept as token characters by `normalizeKey`'s
`replace(/[^a-z0-9]+/g, ' ')` (applied after lowercasing). -/
def isKeyChar (c : Char) : Bool :=
  ('a' ≤ c && c ≤ 'z') || ('0' ≤ c && c ≤ '9')

/-- Runs of non-key characters become a single space, then trim: join the
key-character runs with single spaces. -/
def keyTokensAux (cur : List Char) : List Char → List (List Char)
  | [] => if cur.isEmpty then [] else [cur]
  | c :: rest =>
    if isKeyChar c then keyTokensAux (cur ++ [c]) rest
    else if cur.isEmpty then keyTokensAux [] rest else cur :: keyTokensAux [] rest

/-- `normalizeKey(value: string)`: NFD-decompose, strip combining marks,
lowercase, collapse non-alphanumeric runs to single spaces, trim.
Its TypeScript signature accepts only `string` (no `?? ''` coalescing). -/
def normalizeKey (value : String) : String :=
  let decomposed := value.data.flatMap nfdChar
  let stripped := decomposed.filter (fun c => !isCombiningMark c)
  let lowered := stripped.map Char.toLower
  String.mk (List.intercalate [' '] (keyTokensAux [] lowered))

/-- JavaScript-level behaviour of `normalizeKey` when handed `null`/`undefined`
despite its `string`-only signature: `value.normalize('NFD')` throws a
`TypeError`, embedded as `Except.error`. -/
def normalizeKeyNullable (value : Option String) : Except String String :=
  match value with
  | none => Except.error "TypeError: value.normalize is not a function"
  | some s => Except.ok (normalizeKey s)

/-! ## Posting type classifier (source lines 215-221) -/

inductive JobPostingType where
  | EMPLOI | STAGE | BENEVOLAT | AUTRE
deriving DecidableEq, Repr

/-- `pat.isPrefixOf s` over characters (JavaScript `String.prototype.startsWith`). -/
def startsWithList : List Char → List Char → Bool
  | [], _ => true
  | _ :: _, [] => false
  | p :: ps, c :: cs => p = c && startsWithList ps cs

/-- Substring containment over characters (JavaScript `String.prototype.includes`). -/
def infixOfList (pat : List Char) : List Char → Bool
  | [] => pat.isEmpty
  | c :: rest => startsWithList pat (c :: rest) || infixOfList pat rest

/-- `s.includes(pat)`. -/
def containsSub (s pat : String) : Bool :=
  infixOfList pat.data s.data

/-- `parsePostingType` (source lines 215-221). -/
def parsePostingType (value : String) : JobPostingType :=
  let normalized := normalizeKey value
  if containsSub normalized "benevolat" then .BENEVOLAT
  else if containsSub normalized "stage" then .STAGE
  else if containsSub normalized "emploi" then .EMPLOI
  else .AUTRE

/-- Classifier written from the specification's words: posting-type text mapped
case/diacritic-insensitively to the enum by substring containment with
priority order benevolat > stage > emploi, else AUTRE.  Kept as a separate
definition to compare against the source-derived `parsePostingType`. -/
def specPostingClassifier (value : String) : JobPostingType :=
  let key := normalizeKey value
  if containsSub key "benevolat" then .BENEVOLAT
  else if containsSub key "stage" then .STAGE
  else if containsSub key "emploi" then .EMPLOI
  else .AUTRE

/-! ## Date parsing (source lines 200-213) -/

def digitVal (c : Char) : Nat :=
  c.toNat - '0'.toNat

def digitChar (n : Nat) : Char :=
  Char.ofNat ('0'.toNat + n)

/-- Gregorian leap year (what `Date.UTC` uses). -/
def isLeapYear (y : Nat) : Bool :=
  (y % 4 = 0 && y % 100 ≠ 0) || y % 400 = 0

def daysInMonth (y m : Nat) : Nat :=
  if m = 2 then (if isLeapYear y then 29 else 28)
  else if m = 4 || m = 6 || m = 9 || m = 11 then 30
  else 31

/-- ECMAScript `Date.UTC(year, month - 1, day)` restricted to the already
validated ranges `1 ≤ month ≤ 12`, `1 ≤ day ≤ 31`: the timestamp denotes the
civil day `day - 1` days after the first of the month, so a `day` beyond the
month's length rolls over into the following month (at most once, since
`day ≤ 31 ≤ daysInMonth + 3`).  The result is the UTC-midnight calendar day
as a `(year, month, day)` triple. -/
def dateUTC (y m d : Nat) : Nat × Nat × Nat :=
  if d ≤ daysInMonth y m then (y, m, d)
  else if m = 12 then (y + 1, 1, d - daysInMonth y m)
  else (y, m + 1, d - daysInMonth y m)

/-- The regex match `^(\\d{2})-(\\d{2})-(\\d{4})$` plus `Number.parseInt` of the
three groups, before any range check, on an explicit character list: the raw
`(year, month, day)` components. -/
def parseRawAux : List Char → Option (Nat × Nat × Nat)
  | [d1, d2, s1, m1, m2, s2, y1, y2, y3, y4] =>
    if d1.isDigit && d2.isDigit && s1 = '-' && m1.isDigit && m2.isDigit &&
        s2 = '-' && y1.isDigit && y2.isDigit && y3.isDigit && y4.isDigit then
      some (1000 * digitVal y1 + 100 * digitVal y2 + 10 * digitVal y3 + digitVal y4,
            10 * digitVal m1 + digitVal m2,
            10 * digitVal d1 + digitVal d2)
    else none
  | _ => none

/-- The regex-and-`parseInt` phase of `parseCultureBeDate` applied to the
normalized input. -/
def parseRawComponents (value : String) : Option (Nat × Nat × Nat) :=
  parseRawAux (normalizeText (some value)).data

/-- `parseCultureBeDate` (source lines 200-213): strict `DD-MM-YYYY` regex on
the normalized input, ranges `1 ≤ day ≤ 31`, `1 ≤ month ≤ 12`, `1900 ≤ year`,
then `new Date(Date.UTC(year, month - 1, day))`. -/
def parseCultureBeDate (value : String) : Option (Nat × Nat × Nat) :=
  (parseRawComponents value).bind (fun t =>
    if t.2.2 < 1 || 31 < t.2.2 || t.2.1 < 1 || 12 < t.2.1 || t.1 < 1900 then none
    else some (dateUTC t.1 t.2.1 t.2.2))

def pad2 (n : Nat) : String :=
  String.mk [digitChar (n / 10 % 10), digitChar (n % 10)]

def pad4 (n : Nat) : String :=
  String.mk [digitChar (n / 1000 % 10), digitChar (n / 100 % 10),
             digitChar (n / 10 % 10), digitChar (n % 10)]

/-- Modelled from the spec: the "reformat" step of the round-trip property
("`parseDate` then reformat must reproduce the same calendar day") — render a
`(year, month, day)` triple back into the `DD-MM-YYYY` layout, zero padded.
The repository itself has no such formatter; this follows the spec's words. -/
def formatDDMMYYYY (t : Nat × Nat × Nat) : String :=
  pad2 t.2.2 ++ "-" ++ pad2 t.2.1 ++ "-" ++ pad4 t.1

/-! ## HTML sanitizer (source lines 126-192)

An HTML fragment is embedded as a forest of nodes; text nodes hold decoded
text (what the parser produced from entity references).  `sanitizeDetailHtml`
is the composition of the `sanitize-html` pass, the cheerio fix-up pass over
the re-parsed markup, and the empty-fragment collapse. -/

inductive HNode where
  | text : String → HNode
  | elem : String → List (String × String) → List HNode → HNode
deriving Repr

/-- `ALLOWED_DETAIL_TAGS` (source line 16). -/
def allowedTags : List String := ["p", "br", "ul", "ol", "li", "strong", "em", "a"]

/-- `sanitize-html`'s default `nonTextTags`: disallowed tags whose text content
is discarded along with the tag; other disallowed tags are dropped but their
(sanitized) children are kept. -/
def nonTextTags : List String := ["script", "style", "textarea", "option"]

def isSchemeChar (c : Char) : Bool :=
  c.isAlpha || c.isDigit || c = '.' || c = '-' || c = '+'

/-- The leading `scheme:` prefix of an URL (`[a-zA-Z][a-zA-Z0-9.+-]*:`), if any. -/
def hrefSchemeAux (acc : List Char) : List Char → Option (List Char)
  | [] => none
  | c :: rest =>
    if c = ':' then some acc
    else if isSchemeChar c then hrefSchemeAux (acc ++ [c]) rest
    else none

/-- `sanitize-html`'s `naughtyHref` test combined with the
`allowProtocolRelative: false` option, for `allowedSchemes`
`http`/`https`/`mailto`: control characters and spaces are stripped, a
protocol-relative `//…` value is rejected, a value with a syntactic scheme
must use an allowed scheme, and a scheme-less (relative or empty) value is
allowed. -/
def hrefAllowed (v : String) : Bool :=
  let cs := v.data.filter (fun c => 0x20 < c.toNat)
  if startsWithList ['/', '/'] cs then false
  else
    match cs with
    | [] => true
    | c :: _ =>
      if !c.isAlpha then true
      else
        match hrefSchemeAux [] cs with
        | none => true
        | some sch => (String.mk (sch.map Char.toLower)) ∈ ["http", "https", "mailto"]

/-- `allowedAttributes: { a: ['href', 'title'] }` — only `a` keeps attributes,
and a disallowed-scheme `href` is dropped. -/
def filterAllowedAttrs (tag : String) (attrs : List (String × String)) :
    List (String × String) :=
  if tag = "a" then
    attrs.filter (fun p => (p.1 = "href" && hrefAllowed p.2) || p.1 = "title")
  else []

mutual

/-- The `sanitizeHtml` call (source lines 144-155): keep allow-listed tags with
filtered attributes, drop `nonTextTags` with their contents, and for any other
disallowed tag keep only its sanitized children (`disallowedTagsMode:
'discard'`). -/
def sanitizeNode : HNode → List HNode
  | .text s => [.text s]
  | .elem tag attrs children =>
    if tag ∈ allowedTags then
      [.elem tag (filterAllowedAttrs tag attrs) (sanitizeForest children)]
    else if tag ∈ nonTextTags then []
    else sanitizeForest children

def sanitizeForest : List HNode → List HNode
  | [] => []
  | n :: rest => sanitizeNode n ++ sanitizeForest rest

end

mutual

/-- cheerio's `.text()`: the concatenated (decoded) text of all text nodes. -/
def textContentNode : HNode → String
  | .text s => s
  | .elem _ _ children => textContentForest children

def textContentForest : List HNode → String
  | [] => ""
  | n :: rest => textContentNode n ++ textContentForest rest

end

/-- Left-to-right non-overlapping substring replacement
(`String.prototype.replaceAll`); the fuel is the input length, enough since
every step consumes at least one character. -/
def replaceSubAux (pat rep : List Char) : Nat → List Char → List Char
  | 0, cs => cs
  | _ + 1, [] => []
  | fuel + 1, c :: rest =>
    if !pat.isEmpty && startsWithList pat (c :: rest) then
      rep ++ replaceSubAux pat rep fuel ((c :: rest).drop pat.length)
    else c :: replaceSubAux pat rep fuel rest

def strReplace (s pat rep : String) : String :=
  String.mk (replaceSubAux pat.data rep.data s.data.length s.data)

def escText (s : String) : String :=
  strReplace (strReplace (strReplace s "&" "&amp;") "<" "&lt;") ">" "&gt;"

def escAttr (s : String) : String :=
  strReplace (strReplace s "&" "&amp;") "\"" "&quot;"

def voidTags : List String :=
  ["br", "hr", "img", "area", "base", "col", "embed", "input", "link", "meta",
   "param", "source", "track", "wbr"]

def serializeAttrs (attrs : List (String × String)) : String :=
  attrs.foldl (fun acc p => acc ++ " " ++ p.1 ++ "=\"" ++ escAttr p.2 ++ "\"") ""

mutual

/-- cheerio's `.html()` serialization (dom-serializer with entity encoding). -/
def serializeNode : HNode → String
  | .text s => escText s
  | .elem tag attrs children =>
    if tag ∈ voidTags then "<" ++ tag ++ serializeAttrs attrs ++ ">"
    else
      "<" ++ tag ++ serializeAttrs attrs ++ ">" ++ serializeForest children ++
        "</" ++ tag ++ ">"

def serializeForest : List HNode → String
  | [] => ""
  | n :: rest => serializeNode n ++ serializeForest rest

end

/-- `stripHtmlToText` (source lines 126-132) applied to a parsed fragment:
cheerio text content, whitespace-normalized. -/
def stripForestToText (f : List HNode) : String :=
  normalizeTextCore (textContentForest f)

def decodeEntitiesStr (s : String) : String :=
  strReplace (strReplace (strReplace (strReplace (strReplace s
    "&lt;" "<") "&gt;" ">") "&quot;" "\"") "&#39;" "'") "&amp;" "&"

def splitAtGt (cs : List Char) : List Char × List Char :=
  (cs.takeWhile (fun c => c ≠ '>'), (cs.dropWhile (fun c => c ≠ '>')).drop 1)

def tagNameOf (tagChars : List Char) : String :=
  String.mk ((tagChars.takeWhile (fun c => c ≠ ' ' && c ≠ '/')).map Char.toLower)

/-- Minimal model of parse5 fragment parsing, sufficient for the simple
markup-in-text inputs exercised below: nested tags without attributes and
entity-decoded text runs.  Returns the parsed siblings and the input left
after a closing tag.  `fuel` bounds the recursion. -/
def pMini : Nat → List Char → List HNode × List Char
  | 0, cs => ([], cs)
  | _ + 1, [] => ([], [])
  | _ + 1, '<' :: '/' :: rest => ([], (splitAtGt rest).2)
  | fuel + 1, '<' :: rest =>
    let (tagChars, after) := splitAtGt rest
    let tag := tagNameOf tagChars
    if tag ∈ voidTags then
      let (sibs, after2) := pMini fuel after
      (.elem tag [] [] :: sibs, after2)
    else
      let (children, after2) := pMini fuel after
      let (sibs, after3) := pMini fuel after2
      (.elem tag [] children :: sibs, after3)
  | fuel + 1, c :: rest =>
    let txt := (c :: rest).takeWhile (fun x => x ≠ '<')
    let after := (c :: rest).dropWhile (fun x => x ≠ '<')
    let (sibs, after2) := pMini fuel after
    (.text (decodeEntitiesStr (String.mk txt)) :: sibs, after2)

/-- cheerio `.replaceWith(string)`: the string is parsed as HTML, not inserted
as text.  A string with no markup or entity characters parses to a single text
node; otherwise parse5 fragment parsing applies (modelled by `pMini`). -/
def parseReplacement (s : String) : List HNode :=
  if s.data.any (fun c => c = '<' || c = '&') then (pMini (2 * s.length + 2) s.data).1
  else [.text s]

/-- `class`, `style`, and `on*`-prefixed attributes removed by the fix-up pass
(source lines 166-175). -/
def isBadAttrName (n : String) : Bool :=
  let lowered := n.data.map Char.toLower
  lowered = "class".data || lowered = "style".data ||
    startsWithList ['o', 'n'] lowered

def getAttr (attrs : List (String × String)) (name : String) : Option String :=
  (attrs.find? (fun p => p.1 = name)).map (fun p => p.2)

/-- cheerio `node.attr(name, value)`: overwrite in place or append. -/
def setAttr (attrs : List (String × String)) (name v : String) :
    List (String × String) :=
  if attrs.any (fun p => p.1 = name) then
    attrs.map (fun p => if p.1 = name then (name, v) else p)
  else attrs ++ [(name, v)]

def relValue : String := "noopener noreferrer nofollow"

mutual

/-- The cheerio fix-up pass (source lines 162-185) over the re-parsed sanitized
fragment: drop `class`/`style`/`on*` attributes everywhere; delink every `a`
whose normalized `href` is empty via `replaceWith(node.text())` (nodes a
`replaceWith` inserts are not in the `find('*')` snapshot, hence not
revisited); force `rel` on every other `a`. -/
def fixupNode : HNode → List HNode
  | .text s => [.text s]
  | .elem tag attrs children =>
    let attrs' := attrs.filter (fun p => !isBadAttrName p.1)
    if tag = "a" then
      if normalizeText (getAttr attrs' "href") = "" then
        parseReplacement (textContentForest children)
      else [.elem "a" (setAttr attrs' "rel" relValue) (fixupForest children)]
    else [.elem tag attrs' (fixupForest children)]

def fixupForest : List HNode → List HNode
  | [] => []
  | n :: rest => fixupNode n ++ fixupForest rest

end

/-- `sanitizeDetailHtml` (source lines 143-192) on a parsed input fragment:
sanitize, bail out on an empty sanitized string, fix up the re-parsed
fragment, trim, and collapse to `""` when the stripped text is empty. -/
def sanitizeDetailHtml (raw : List HNode) : String :=
  let sanitized := sanitizeForest raw
  if serializeForest sanitized = "" then ""
  else
    let fixed := fixupForest sanitized
    let cleaned := jsTrim (serializeForest fixed)
    if cleaned = "" then ""
    else if stripForestToText fixed = "" then ""
    else cleaned

/-! ## Bounded-concurrency worker pool (source lines 524-544)

`mapWithConcurrency` spawns `min(concurrency, items.length)` async workers
sharing a cursor `index`; between `await` points JavaScript executes
atomically, so grabbing the cursor (`const currentIndex = index; index += 1`)
and writing a finished result are the two atomic steps of a worker.  The pool
is embedded as a state machine driven by an arbitrary schedule of worker
indices; `results` is the (sparse, slot-addressed) result array and `calls`
counts mapper invocations per slot. -/

structure PoolState (R : Type) where
  idx : Nat
  results : List (Option R)
  holding : List (Option Nat)
  calls : List Nat
deriving Repr

def poolInit (R : Type) (n concurrency : Nat) : PoolState R :=
  ⟨0, List.replicate n none, List.replicate (min concurrency n) none,
    List.replicate n 0⟩

/-- One atomic step of worker `k`: grab the shared cursor (and call the mapper
on that item), or store a finished result into its slot.  `none` when worker
`k` does not exist or has no step to take. -/
def poolStep {T R : Type} (items : List T) (f : T → R) (k : Nat)
    (st : PoolState R) : Option (PoolState R) :=
  match st.holding[k]? with
  | none => none
  | some (some i) =>
    match items[i]? with
    | some x =>
      some { st with results := st.results.set i (some (f x)),
                     holding := st.holding.set k none }
    | none => none
  | some none =>
    if st.idx < items.length then
      some { idx := st.idx + 1,
             results := st.results,
             holding := st.holding.set k (some st.idx),
             calls := st.calls.set st.idx (((st.calls[st.idx]?).getD 0) + 1) }
    else none

/-- Run the pool under a schedule (a step of a missing or blocked worker is a
no-op). -/
def poolRun {T R : Type} (items : List T) (f : T → R) (concurrency : Nat)
    (sched : List Nat) : PoolState R :=
  sched.foldl (fun st k => (poolStep items f k st).getD st)
    (poolInit R items.length concurrency)

/-- The pool has terminated: the cursor is exhausted and every worker idle. -/
def poolFinal {R : Type} (n : Nat) (st : PoolState R) : Bool :=
  n ≤ st.idx && st.holding.all Option.isNone

/-- Number of items being processed concurrently. -/
def inFlight {R : Type} (st : PoolState R) : Nat :=
  (st.holding.filter Option.isSome).length

/-! ## Sync orchestrator (source lines 619-730)

A sync run is embedded as a pure function of the merged listing-scan rows, the
persisted store, the per-listing detail-fetch outcome (`none` = the fetch or
parse threw) and the run timestamp.  The worker pool is replaced by the
sequential map it is proved equivalent to (see the pool theorems); JavaScript
`Map`/`Set` are embedded as insertion-ordered lists. -/

structure ListingJob where
  uid : Nat
  title : String
deriving DecidableEq, Repr

/-- A persisted `Job` row (the `(source, uid)` key plus its listing/detail
payload). -/
structure JobRecord where
  uid : Nat
  title : String
  detail : String
deriving DecidableEq, Repr

structure SyncSummary where
  syncedAt : String
  scanned : Nat
  existing : Nat
  newFound : Nat
  inserted : Nat
  removed : Nat
  removedUids : List Nat
  failed : Nat
  failedUids : List Nat
deriving DecidableEq, Repr

structure SyncOutcome where
  summary : SyncSummary
  store : List JobRecord
  syncState : Option String
  warnings : List String
deriving DecidableEq, Repr

/-- Insert into a JavaScript-`Map`-like association list: a repeated key keeps
its original position but takes the new value. -/
def upsertAssoc (m : List (Nat × ListingJob)) (j : ListingJob) :
    List (Nat × ListingJob) :=
  if m.any (fun p => p.1 = j.uid) then
    m.map (fun p => if p.1 = j.uid then (p.1, j) else p)
  else m ++ [(j.uid, j)]

/-- `Array.from(new Map(mergedListings.map(job => [job.uid, job])).values())`
(source line 632): deduplicate by uid, last value wins, first-insertion order. -/
def dedupByUid (jobs : List ListingJob) : List ListingJob :=
  (jobs.foldl upsertAssoc []).map (fun p => p.2)

/-- `new Set(uids)` as an insertion-ordered duplicate-free list. -/
def uidSetOf (uids : List Nat) : List Nat :=
  uids.foldl (fun acc u => if acc.contains u then acc else acc ++ [u]) []

def listingUidsOf (scanRows : List ListingJob) : List Nat :=
  (dedupByUid scanRows).map (fun j => j.uid)

/-- `existingUidSet` (source line 648). -/
def existingUidSetOf (scanRows : List ListingJob) (store : List JobRecord) :
    List Nat :=
  let allPersistedUidSet := uidSetOf (store.map (fun j => j.uid))
  uidSetOf ((listingUidsOf scanRows).filter (fun u => allPersistedUidSet.contains u))

/-- `newListings` (source line 649). -/
def newListingsOf (scanRows : List ListingJob) (store : List JobRecord) :
    List ListingJob :=
  (dedupByUid scanRows).filter
    (fun j => !(existingUidSetOf scanRows store).contains j.uid)

/-- `removedUids` (source lines 651-654): skipped entirely on an empty scan. -/
def removedUidsOf (scanRows : List ListingJob) (store : List JobRecord) :
    List Nat :=
  if (dedupByUid scanRows).isEmpty then []
  else (uidSetOf (store.map (fun j => j.uid))).filter
    (fun u => !(listingUidsOf scanRows).contains u)

def staleWarning : String :=
  "Skipping stale culture.be deletion because listing scrape returned zero jobs"

def failWarning (uid : Nat) : String :=
  "Failed to parse job detail page uid=" ++ toString uid

/-- `failedUids` (source lines 662-676): the uids of the new listings whose
detail fetch threw, collected by the per-item failure boundary. -/
def failedUidsOf (scanRows : List ListingJob) (store : List JobRecord)
    (fetchDetail : ListingJob → Option String) : List Nat :=
  ((newListingsOf scanRows store).filter (fun l => (fetchDetail l).isNone)).map
    (fun l => l.uid)

/-- `jobsToInsert` (source lines 663-677): successful detail fetches mapped to
rows, failures filtered out. -/
def jobsToInsertOf (scanRows : List ListingJob) (store : List JobRecord)
    (fetchDetail : ListingJob → Option String) : List JobRecord :=
  (newListingsOf scanRows store).filterMap
    (fun l => (fetchDetail l).map (fun d => JobRecord.mk l.uid l.title d))

/-- The rows actually inserted by `createMany(skipDuplicates)` (source lines
679-685): batch rows whose uid is not yet persisted. -/
def insertedRowsOf (scanRows : List ListingJob) (store : List JobRecord)
    (fetchDetail : ListingJob → Option String) : List JobRecord :=
  (jobsToInsertOf scanRows store fetchDetail).filter
    (fun j => !(store.map (fun r => r.uid)).contains j.uid)

/-- The persisted store after the insert and delete steps (source lines
679-695). -/
def storeAfterSync (scanRows : List ListingJob) (store : List JobRecord)
    (fetchDetail : ListingJob → Option String) : List JobRecord :=
  (store ++ insertedRowsOf scanRows store fetchDetail).filter
    (fun j => !(removedUidsOf scanRows store).contains j.uid)

/-- `deleteResult.count` (source lines 687-695). -/
def deleteCountOf (scanRows : List ListingJob) (store : List JobRecord)
    (fetchDetail : ListingJob → Option String) : Nat :=
  ((store ++ insertedRowsOf scanRows store fetchDetail).filter
    (fun j => (removedUidsOf scanRows store).contains j.uid)).length

/-- `syncNewCultureBeJobs` (source lines 619-730) given the merged rows of all
listing pages, the persisted store, the detail-fetch outcomes and the run
timestamp.  `createMany(skipDuplicates)` is the append of the batch rows whose
uid is not yet persisted; `deleteMany` filters the store by `removedUids`; the
sync-state upsert runs unconditionally. -/
def syncNewCultureBeJobs (scanRows : List ListingJob) (store : List JobRecord)
    (fetchDetail : ListingJob → Option String) (now : String) : SyncOutcome :=
  let dedupedListings := dedupByUid scanRows
  let failedUids := failedUidsOf scanRows store fetchDetail
  let staleWarnings :=
    if dedupedListings.isEmpty && !(uidSetOf (store.map (fun j => j.uid))).isEmpty
    then [staleWarning] else []
  { summary := { syncedAt := now,
                 scanned := dedupedListings.length,
                 existing := (existingUidSetOf scanRows store).length,
                 newFound := (newListingsOf scanRows store).length,
                 inserted := (insertedRowsOf scanRows store fetchDetail).length,
                 removed := deleteCountOf scanRows store fetchDetail,
                 removedUids := removedUidsOf scanRows store,
                 failed := failedUids.length,
                 failedUids := failedUids },
    store := storeAfterSync scanRows store fetchDetail,
    syncState := some now,
    warnings := failedUids.map failWarning ++ staleWarnings }

/-! ## Theorems -/

/-- C6: the claim fails on the code.  The delink step runs
`node.replaceWith(node.text())`, and cheerio parses the replacement string as
HTML; an empty-href anchor whose text content looks like markup therefore gets
re-injected as elements.  On `<a href="">&lt;a&gt;x&lt;/a&gt;</a>` the output
is `<a>x</a>` — an `a` element with no `href` and no forced `rel`, violating
both the delink clause and the rel clause; on
`<a href="">&lt;script&gt;alert(1)&lt;/script&gt;</a>` the sanitizer even
emits a `script` element.  The spec's three positive examples do hold. -/
theorem sanitizeDetailHtml_delink_reinjects_markup :
    sanitizeDetailHtml [.elem "a" [("href", "")] [.text "<a>x</a>"]] = "<a>x</a>" ∧
    fixupForest (sanitizeForest [.elem "a" [("href", "")] [.text "<a>x</a>"]]) =
      [.elem "a" [] [.text "x"]] ∧
    sanitizeDetailHtml [.elem "a" [("href", "")] [.text "<script>alert(1)</script>"]] =
      "<script>alert(1)</script>" ∧
    sanitizeDetailHtml [.elem "script" [] [.text "x"], .elem "p" [] [.text "ok"]] =
      "<p>ok</p>" ∧
    sanitizeDetailHtml [.elem "a" [("href", "")] [.text "link"]] = "link" ∧
    sanitizeDetailHtml
        [.elem "a" [("href", "https://x"), ("class", "y"), ("onclick", "z")]
          [.text "t"]] =
      "<a href=\"https://x\" rel=\"noopener noreferrer nofollow\">t</a>" :=
  ⟨rfl, rfl, rfl, rfl, rfl, rfl⟩

/-- C7: empty-fragment collapse.  Every run of `sanitizeDetailHtml` either
returns the empty string or returns a fragment whose stripped text content is
non-empty (the guard `if (!stripHtmlToText(cleanedHtml)) return ''`); the
spec's example `<div><span></span></div>` collapses to `""`. -/
theorem sanitizeDetailHtml_empty_collapse :
    (∀ raw : List HNode,
      sanitizeDetailHtml raw = "" ∨
        stripForestToText (fixupForest (sanitizeForest raw)) ≠ "") ∧
    sanitizeDetailHtml [.elem "div" [] [.elem "span" [] []]] = "" := by
  constructor
  · intro raw
    by_cases h1 : serializeForest (sanitizeForest raw) = ""
    · left; simp [sanitizeDetailHtml, h1]
    · by_cases h2 : jsTrim (serializeForest (fixupForest (sanitizeForest raw))) = ""
      · left; simp [sanitizeDetailHtml, h1, h2]
      · by_cases h3 : stripForestToText (fixupForest (sanitizeForest raw)) = ""
        · left; simp [sanitizeDetailHtml, h1, h2, h3]
        · right; exact h3
  · exact rfl

/-- C8: the claim fails on the code.  `"stagiaire"` does not contain the
substring `"stage"` (after `stag` comes an `i`), so `parsePostingType
"Stagiaire"` is `AUTRE`, not the claimed `STAGE`. -/
theorem parsePostingType_stagiaire_counterexample :
    parsePostingType "Stagiaire" = .AUTRE ∧ parsePostingType "Stagiaire" ≠ .STAGE :=
  ⟨rfl, fun h => by rw [show parsePostingType "Stagiaire" = .AUTRE from rfl] at h; exact absurd h (by decide)⟩

/-- C8 (amended): `parsePostingType` classifies by case- and
diacritic-insensitive substring containment on the normalized key with
priority benevolat > stage > emploi, else AUTRE; `"Stage"` and `"STAGE"` map
to STAGE, while `"Stagiaire"` (no `stage` substring) and `"Formation"` map to
AUTRE, and a label containing both needles obeys the benevolat priority. -/
theorem parsePostingType_classification :
    (∀ s : String, parsePostingType s = specPostingClassifier s) ∧
    parsePostingType "Stage" = .STAGE ∧
    parsePostingType "STAGE" = .STAGE ∧
    parsePostingType "Stagiaire" = .AUTRE ∧
    parsePostingType "Formation" = .AUTRE ∧
    parsePostingType "stage bénévolat" = .BENEVOLAT ∧
    parsePostingType "Bénévolat" = .BENEVOLAT ∧
    parsePostingType "Emploi" = .EMPLOI :=
  ⟨fun _ => rfl, rfl, rfl, rfl, rfl, rfl, rfl, rfl⟩

/-- C10: the claim fails on the code.  Unlike `normalizeText` and
`normalizeMultilineText` (whose signatures accept `null`/`undefined` and
coalesce with `?? ''`), `normalizeKey` accepts only `string`; handed `null`
at runtime, `value.normalize('NFD')` throws a `TypeError` instead of
returning the empty string. -/
theorem normalizeKey_null_counterexample :
    normalizeKeyNullable none ≠ Except.ok "" ∧
      normalizeKeyNullable none =
        Except.error "TypeError: value.normalize is not a function" :=
  ⟨fun h => by simp [normalizeKeyNullable] at h, rfl⟩

/-- C10 (amended): `normalizeText` and `normalizeMultilineText` are total and
treat a `null`/`undefined` input as the empty string; `normalizeKey` is total
over strings (never throws for a string input) but does not coalesce
`null`/`undefined`. -/
theorem normalizer_totality :
    normalizeText none = "" ∧
    normalizeMultilineText none = "" ∧
    (∀ s : String, normalizeKeyNullable (some s) = Except.ok (normalizeKey s)) :=
  ⟨rfl, rfl, fun _ => rfl⟩

/-! ### Dedup lemmas (C4) -/

lemma upsertAssoc_keyed {m : List (Nat × ListingJob)} {j : ListingJob}
    (hm : ∀ p ∈ m, p.2.uid = p.1) :
    ∀ p ∈ upsertAssoc m j, p.2.uid = p.1 := by
  intro p hp
  unfold upsertAssoc at hp
  by_cases h : m.any (fun q => q.1 = j.uid)
  · simp only [h, if_pos] at hp
    obtain ⟨q, hq, hpq⟩ := List.mem_map.mp hp
    by_cases hqj : q.1 = j.uid
    · simp only [hqj, if_pos] at hpq
      subst hpq
      rfl
    · simp only [hqj, if_neg, if_false] at hpq
      subst hpq
      exact hm q hq
  · simp only [h, if_neg, Bool.false_eq_true, not_false_iff, List.mem_append,
      List.mem_singleton] at hp
    rcases hp with hp | hp
    · exact hm p hp
    · subst hp
      rfl

lemma upsertAssoc_fst {m : List (Nat × ListingJob)} {j : ListingJob} :
    (m.map (fun p => if p.1 = j.uid then (p.1, j) else p)).map Prod.fst =
      m.map Prod.fst := by
  rw [List.map_map]
  apply List.map_congr_left
  intro p _
  by_cases hpj : p.1 = j.uid <;> simp [hpj]

lemma upsertAssoc_keys_nodup {m : List (Nat × ListingJob)} {j : ListingJob}
    (hm : (m.map Prod.fst).Nodup) :
    ((upsertAssoc m j).map Prod.fst).Nodup := by
  unfold upsertAssoc
  by_cases h : m.any (fun q => q.1 = j.uid)
  · rw [if_pos h, upsertAssoc_fst]
    exact hm
  · rw [if_neg h, List.map_append, List.nodup_append]
    refine ⟨hm, by simp, ?_⟩
    intro a ha hb
    simp only [List.map_cons, List.map_nil, List.mem_singleton] at hb
    subst hb
    obtain ⟨q, hq, hqa⟩ := List.mem_map.mp ha
    exact h (List.any_eq_true.mpr ⟨q, hq, by simpa using hqa⟩)

lemma filter_values_none {m : List (Nat × ListingJob)} {u : Nat}
    (hm : ∀ p ∈ m, p.2.uid = p.1) (hmiss : ∀ p ∈ m, p.1 ≠ u) :
    (m.map Prod.snd).filter (fun x => x.uid == u) = [] := by
  rw [List.filter_eq_nil_iff]
  intro x hx
  obtain ⟨p, hp, hpx⟩ := List.mem_map.mp hx
  subst hpx
  simpa [hm p hp] using hmiss p hp

lemma upsertAssoc_filter_hit {m : List (Nat × ListingJob)} {j : ListingJob}
    (hm : ∀ p ∈ m, p.2.uid = p.1) (hnd : (m.map Prod.fst).Nodup) :
    ((upsertAssoc m j).map Prod.snd).filter (fun x => x.uid == j.uid) = [j] := by
  unfold upsertAssoc
  by_cases h : m.any (fun q => q.1 = j.uid)
  · rw [if_pos h]
    induction m with
    | nil => simp at h
    | cons p rest ih =>
      have hmr : ∀ q ∈ rest, q.2.uid = q.1 := fun q hq => hm q (List.mem_cons_of_mem _ hq)
      have hndr : (rest.map Prod.fst).Nodup := by
        simp only [List.map_cons, List.nodup_cons] at hnd
        exact hnd.2
      simp only [List.map_cons, List.filter_cons]
      by_cases hpj : p.1 = j.uid
      · simp only [hpj, if_pos, beq_self_eq_true, if_true]
        have hrestmiss : ∀ q ∈ rest, q.1 ≠ j.uid := by
          intro q hq hqj
          simp only [List.map_cons, List.nodup_cons, List.mem_map] at hnd
          exact hnd.1 ⟨q, hq, by rw [hqj, hpj]⟩
        have hmap : rest.map (fun q => if q.1 = j.uid then (q.1, j) else q) = rest := by
          conv_rhs => rw [← List.map_id rest]
          apply List.map_congr_left
          intro q hq
          simp [hrestmiss q hq]
        rw [hmap, filter_values_none hmr hrestmiss]
      · have hvp : p.2.uid ≠ j.uid := by
          rw [hm p (List.mem_cons_self _ _)]
          exact hpj
        have hany : rest.any (fun q => q.1 = j.uid) = true := by
          rcases List.any_eq_true.mp h with ⟨q, hq, hqj⟩
          rcases List.mem_cons.mp hq with rfl | hq'
          · exact absurd (by simpa using hqj) hpj
          · exact List.any_eq_true.mpr ⟨q, hq', hqj⟩
        simp only [hpj, if_neg, if_false, beq_iff_eq, hvp, ite_false]
        exact ih hmr hndr hany
  · rw [if_neg h]
    have hmiss : ∀ p ∈ m, p.1 ≠ j.uid := by
      intro p hp hpj
      exact h (List.any_eq_true.mpr ⟨p, hp, by simpa using hpj⟩)
    rw [List.map_append, List.filter_append, filter_values_none hm hmiss]
    simp

lemma upsertAssoc_filter_miss {m : List (Nat × ListingJob)} {j : ListingJob} {u : Nat}
    (hm : ∀ p ∈ m, p.2.uid = p.1) (hju : j.uid ≠ u) :
    ((upsertAssoc m j).map Prod.snd).filter (fun x => x.uid == u) =
      (m.map Prod.snd).filter (fun x => x.uid == u) := by
  unfold upsertAssoc
  by_cases h : m.any (fun q => q.1 = j.uid)
  · rw [if_pos h]
    clear h
    induction m with
    | nil => simp
    | cons p rest ih =>
      have hmr : ∀ q ∈ rest, q.2.uid = q.1 := fun q hq => hm q (List.mem_cons_of_mem _ hq)
      simp only [List.map_cons, List.filter_cons]
      by_cases hpj : p.1 = j.uid
      · have hvp : p.2.uid = j.uid := by
          rw [hm p (List.mem_cons_self _ _), hpj]
        simp only [hpj, if_pos, beq_iff_eq, hju, ite_false, hvp]
        exact ih hmr
      · simp only [hpj, if_neg, if_false]
        rw [ih hmr]
  · rw [if_neg h, List.map_append, List.filter_append]
    simp [hju]

lemma foldl_upsert_filter (u : Nat) :
    ∀ (jobs : List ListingJob) (m : List (Nat × ListingJob)),
      (∀ p ∈ m, p.2.uid = p.1) → (m.map Prod.fst).Nodup →
      ((jobs.foldl upsertAssoc m).map Prod.snd).filter (fun x => x.uid == u) =
        match (jobs.filter (fun x => x.uid == u)).getLast? with
        | some x => [x]
        | none => (m.map Prod.snd).filter (fun x => x.uid == u) := by
  intro jobs
  induction jobs with
  | nil =>
    intro m _ _
    simp
  | cons j rest ih =>
    intro m hm hnd
    have hm' := upsertAssoc_keyed hm (j := j)
    have hnd' := upsertAssoc_keys_nodup hnd (j := j)
    rw [List.foldl_cons, ih _ hm' hnd', List.filter_cons]
    by_cases hju : j.uid = u
    · simp only [hju, beq_self_eq_true, if_true]
      cases hrest : rest.filter (fun x => x.uid == u) with
      | nil =>
        subst hju
        exact upsertAssoc_filter_hit hm hnd
      | cons y ys =>
        obtain ⟨z, hz⟩ := Option.isSome_iff_exists.mp
          (List.getLast?_isSome.mpr (List.cons_ne_nil y ys))
        rw [List.getLast?_cons_cons, hz]
    · simp only [beq_iff_eq, hju, ite_false]
      cases hrest : rest.filter (fun x => x.uid == u) with
      | nil =>
        exact upsertAssoc_filter_miss hm hju
      | cons y ys =>
        obtain ⟨z, hz⟩ := Option.isSome_iff_exists.mp
          (List.getLast?_isSome.mpr (List.cons_ne_nil y ys))
        rw [hz]

/-- C4: dedup last-wins.  For every merged listing-row list, deduplication by
uid keeps, for each uid, exactly the last occurrence in scan order — the
filtered-by-uid slice of `dedupByUid` is exactly the last input row with that
uid (a JavaScript `Map` keeps the first-insertion position but the last-set
value); in particular `[{uid 1, A}, {uid 1, B}]` dedupes to `[{uid 1, B}]`. -/
theorem dedupByUid_last_wins :
    (∀ (jobs : List ListingJob) (u : Nat),
      (dedupByUid jobs).filter (fun j => j.uid == u) =
        ((jobs.filter (fun j => j.uid == u)).getLast?).toList) ∧
    dedupByUid [⟨1, "A"⟩, ⟨1, "B"⟩] = [⟨1, "B"⟩] := by
  constructor
  · intro jobs u
    have h := foldl_upsert_filter u jobs [] (by simp) (by simp)
    unfold dedupByUid
    rw [h]
    cases (jobs.filter (fun j => j.uid == u)).getLast? <;> simp
  · rfl

/-! ### Sync lemmas (C1, C2, C3) -/

lemma mem_foldl_uidSet :
    ∀ (l acc : List Nat) (u : Nat),
      u ∈ l.foldl (fun a v => if a.contains v then a else a ++ [v]) acc ↔
        u ∈ acc ∨ u ∈ l := by
  intro l
  induction l with
  | nil =>
    intro acc u
    simp
  | cons x rest ih =>
    intro acc u
    rw [List.foldl_cons, ih]
    by_cases hx : acc.contains x
    · have hxm : x ∈ acc := List.elem_iff.mp hx
      simp only [hx, if_true, List.mem_cons]
      constructor
      · rintro (h | h)
        · exact Or.inl h
        · exact Or.inr (Or.inr h)
      · rintro (h | h | h)
        · exact Or.inl h
        · subst h
          exact Or.inl hxm
        · exact Or.inr h
    · simp only [hx, if_false, Bool.false_eq_true, List.mem_append,
        List.mem_singleton, List.mem_cons]
      tauto

lemma mem_uidSetOf {l : List Nat} {u : Nat} : u ∈ uidSetOf l ↔ u ∈ l := by
  unfold uidSetOf
  rw [mem_foldl_uidSet]
  simp

lemma contains_iff {α : Type} [BEq α] [LawfulBEq α] (l : List α) (u : α) :
    l.contains u = true ↔ u ∈ l := List.elem_iff

lemma not_contains_iff {α : Type} [BEq α] [LawfulBEq α] (l : List α) (u : α) :
    (!l.contains u) = true ↔ u ∉ l := by
  constructor
  · intro h hm
    rw [(contains_iff l u).mpr hm] at h
    simp at h
  · intro h
    cases hc : l.contains u
    · rfl
    · exact absurd ((contains_iff l u).mp hc) h

lemma newListings_mem_dedup {scan : List ListingJob} {store : List JobRecord}
    {l : ListingJob} (h : l ∈ newListingsOf scan store) : l ∈ dedupByUid scan :=
  (List.mem_filter.mp h).1

lemma newListings_uid_not_persisted {scan : List ListingJob}
    {store : List JobRecord} {l : ListingJob} (h : l ∈ newListingsOf scan store) :
    l.uid ∉ store.map JobRecord.uid := by
  intro hmem
  obtain ⟨hded, hnc⟩ := List.mem_filter.mp h
  have hlu : l.uid ∈ listingUidsOf scan := List.mem_map.mpr ⟨l, hded, rfl⟩
  have hpers : (uidSetOf (store.map (fun j => j.uid))).contains l.uid = true :=
    List.elem_iff.mpr (mem_uidSetOf.mpr (by simpa using hmem))
  have hex : l.uid ∈ existingUidSetOf scan store := by
    unfold existingUidSetOf
    exact mem_uidSetOf.mpr (List.mem_filter.mpr ⟨hlu, hpers⟩)
  exact absurd hex ((not_contains_iff _ _).mp hnc)

lemma mem_newListings_of_not_persisted {scan : List ListingJob}
    {store : List JobRecord} {l : ListingJob} (hded : l ∈ dedupByUid scan)
    (hnp : l.uid ∉ store.map JobRecord.uid) : l ∈ newListingsOf scan store := by
  refine List.mem_filter.mpr ⟨hded, ?_⟩
  suffices h : l.uid ∉ existingUidSetOf scan store by
    exact (not_contains_iff _ _).mpr h
  intro hex
  unfold existingUidSetOf at hex
  have := (List.mem_filter.mp (mem_uidSetOf.mp hex)).2
  have := mem_uidSetOf.mp (List.elem_iff.mp this)
  exact hnp (by simpa using this)

lemma mem_removedUids {scan : List ListingJob} {store : List JobRecord} {u : Nat}
    (h : u ∈ removedUidsOf scan store) :
    u ∈ store.map JobRecord.uid ∧ u ∉ listingUidsOf scan := by
  unfold removedUidsOf at h
  by_cases hempty : (dedupByUid scan).isEmpty
  · rw [if_pos hempty] at h
    simp at h
  · rw [if_neg hempty] at h
    obtain ⟨hmem, hnc⟩ := List.mem_filter.mp h
    exact ⟨by simpa using mem_uidSetOf.mp hmem, (not_contains_iff _ _).mp hnc⟩

lemma scanned_not_removed {scan : List ListingJob} {store : List JobRecord}
    {u : Nat} (h : u ∈ listingUidsOf scan) : u ∉ removedUidsOf scan store :=
  fun hrem => (mem_removedUids hrem).2 h

lemma insertedRows_eq_jobsToInsert {scan : List ListingJob}
    {store : List JobRecord} {f : ListingJob → Option String} :
    insertedRowsOf scan store f = jobsToInsertOf scan store f := by
  unfold insertedRowsOf
  apply List.filter_eq_self.mpr
  intro j hj
  obtain ⟨l, hl, hlj⟩ := List.mem_filterMap.mp hj
  obtain ⟨d, _, hd⟩ := Option.map_eq_some.mp hlj
  have hju : j.uid = l.uid := by rw [← hd]
  refine (not_contains_iff _ _).mpr ?_
  intro hmem
  have : j.uid ∈ store.map JobRecord.uid := by simpa using hmem
  rw [hju] at this
  exact absurd this (newListings_uid_not_persisted hl)

lemma length_filterMap_fetch (f : ListingJob → Option String) :
    ∀ l : List ListingJob,
      (l.filterMap (fun x => (f x).map (fun d => JobRecord.mk x.uid x.title d))).length
        = (l.filter (fun x => (f x).isSome)).length := by
  intro l
  induction l with
  | nil => rfl
  | cons x rest ih =>
    rw [List.filterMap_cons, List.filter_cons]
    cases hx : f x with
    | none => simpa [hx] using ih
    | some d => simpa [hx] using ih

lemma length_filter_add_filter_not (p : ListingJob → Bool) :
    ∀ l : List ListingJob,
      (l.filter p).length + (l.filter (fun x => !p x)).length = l.length := by
  intro l
  induction l with
  | nil => rfl
  | cons x rest ih =>
    rw [List.filter_cons, List.filter_cons]
    cases hx : p x
    · simp only [hx, Bool.not_false, Bool.false_eq_true, if_false, if_true,
        List.length_cons]
      omega
    · simp only [hx, Bool.not_true, Bool.false_eq_true, if_false, if_true,
        List.length_cons]
      omega

lemma store_uid_mem_scan {scan : List ListingJob} {store : List JobRecord}
    {f : ListingJob → Option String} (hne : ¬(dedupByUid scan).isEmpty = true)
    {j : JobRecord} (hj : j ∈ storeAfterSync scan store f) :
    j.uid ∈ listingUidsOf scan := by
  obtain ⟨hmem, hnc⟩ := List.mem_filter.mp hj
  have hnotrem : j.uid ∉ removedUidsOf scan store := (not_contains_iff _ _).mp hnc
  rcases List.mem_append.mp hmem with hst | hins
  · by_cases hlu : j.uid ∈ listingUidsOf scan
    · exact hlu
    · exfalso
      apply hnotrem
      unfold removedUidsOf
      rw [if_neg hne]
      refine List.mem_filter.mpr ⟨?_, (not_contains_iff _ _).mpr hlu⟩
      exact mem_uidSetOf.mpr (List.mem_map.mpr ⟨j, hst, rfl⟩)
  · have hjins := List.mem_filter.mp hins
    obtain ⟨l, hl, hlj⟩ := List.mem_filterMap.mp hjins.1
    obtain ⟨d, _, hd⟩ := Option.map_eq_some.mp hlj
    have : j.uid = l.uid := by rw [← hd]
    rw [this]
    exact List.mem_map.mpr ⟨l, newListings_mem_dedup hl, rfl⟩

lemma scanned_success_uid_mem_store {scan : List ListingJob}
    {store : List JobRecord} {f : ListingJob → Option String} {l : ListingJob}
    (hded : l ∈ dedupByUid scan) (hsome : (f l).isSome = true) :
    l.uid ∈ (storeAfterSync scan store f).map JobRecord.uid := by
  have hlu : l.uid ∈ listingUidsOf scan := List.mem_map.mpr ⟨l, hded, rfl⟩
  have hnotrem : l.uid ∉ removedUidsOf scan store := scanned_not_removed hlu
  by_cases hst : l.uid ∈ store.map JobRecord.uid
  · obtain ⟨j, hj, hju⟩ := List.mem_map.mp hst
    refine List.mem_map.mpr ⟨j, ?_, hju⟩
    refine List.mem_filter.mpr ⟨List.mem_append.mpr (Or.inl hj), ?_⟩
    refine (not_contains_iff _ _).mpr ?_
    rw [hju]
    exact hnotrem
  · have hnew : l ∈ newListingsOf scan store := mem_newListings_of_not_persisted hded hst
    obtain ⟨d, hd⟩ := Option.isSome_iff_exists.mp hsome
    have hjmem : JobRecord.mk l.uid l.title d ∈ jobsToInsertOf scan store f := by
      refine List.mem_filterMap.mpr ⟨l, hnew, ?_⟩
      rw [hd]
      rfl
    refine List.mem_map.mpr ⟨JobRecord.mk l.uid l.title d, ?_, rfl⟩
    refine List.mem_filter.mpr ⟨?_, (not_contains_iff _ _).mpr hnotrem⟩
    refine List.mem_append.mpr (Or.inr ?_)
    rw [insertedRows_eq_jobsToInsert]
    exact hjmem

/-- C1: empty-scan safety.  When the deduplicated listing scan yields zero
rows while the store holds `N > 0` persisted jobs, the run computes an empty
`removedUids`, reports `removed = 0` (and inserts nothing), deletes no
persisted job, and logs the stale-deletion warning. -/
theorem sync_empty_scan_safety (store : List JobRecord)
    (f : ListingJob → Option String) (now : String) (h : 0 < store.length) :
    (syncNewCultureBeJobs [] store f now).summary.removedUids = [] ∧
    (syncNewCultureBeJobs [] store f now).summary.removed = 0 ∧
    (syncNewCultureBeJobs [] store f now).summary.inserted = 0 ∧
    (syncNewCultureBeJobs [] store f now).store = store ∧
    (syncNewCultureBeJobs [] store f now).warnings = [staleWarning] := by
  have hins : insertedRowsOf [] store f = [] := rfl
  have hdel : deleteCountOf [] store f = 0 := by
    unfold deleteCountOf
    rw [hins, List.append_nil]
    rw [List.filter_eq_nil_iff.mpr (fun j _ => by
      rw [show (removedUidsOf [] store).contains j.uid = false from rfl]
      simp)]
    rfl
  have hstore : storeAfterSync [] store f = store := by
    unfold storeAfterSync
    rw [hins, List.append_nil]
    exact List.filter_eq_self.mpr (fun j _ => rfl)
  have hne : (uidSetOf (store.map (fun j => j.uid))).isEmpty = false := by
    cases store with
    | nil => simp at h
    | cons j rest =>
      have hmem : j.uid ∈ uidSetOf ((j :: rest).map (fun r => r.uid)) :=
        mem_uidSetOf.mpr (by simp)
      cases he : (uidSetOf ((j :: rest).map (fun r => r.uid))).isEmpty
      · rfl
      · rw [List.isEmpty_iff.mp he] at hmem
        simp at hmem
  refine ⟨rfl, hdel, congrArg List.length hins, hstore, ?_⟩
  show (failedUidsOf [] store f).map failWarning ++
      (if (dedupByUid ([] : List ListingJob)).isEmpty &&
          !(uidSetOf (store.map (fun j => j.uid))).isEmpty
        then [staleWarning] else []) = [staleWarning]
  rw [hne]
  rfl

/-- C1 witness at a concrete store of one persisted job and a scan of zero
rows. -/
theorem sync_empty_scan_safety_witness :
    0 < ([JobRecord.mk 1 "t" "d"] : List JobRecord).length ∧
    (syncNewCultureBeJobs [] [JobRecord.mk 1 "t" "d"] (fun _ => none) "T").store =
      [JobRecord.mk 1 "t" "d"] ∧
    (syncNewCultureBeJobs [] [JobRecord.mk 1 "t" "d"] (fun _ => none) "T").summary.removed = 0 :=
  ⟨by decide,
    (sync_empty_scan_safety [JobRecord.mk 1 "t" "d"] (fun _ => none) "T"
      (by decide)).2.2.2.1,
    (sync_empty_scan_safety [JobRecord.mk 1 "t" "d"] (fun _ => none) "T"
      (by decide)).2.1⟩

/-- C3: partial failure isolation.  For every sync run, the summary's `failed`
count and `failedUids` are exactly the new listings whose detail fetch threw,
those listings are excluded from the insert batch while every successful new
listing is inserted (`inserted + failed = newFound`), and the run still
upserts the source's `lastSyncedAt` sync state to the run timestamp. -/
theorem sync_partial_failure_isolation (scan : List ListingJob)
    (store : List JobRecord) (f : ListingJob → Option String) (now : String) :
    (syncNewCultureBeJobs scan store f now).summary.newFound =
      (newListingsOf scan store).length ∧
    (syncNewCultureBeJobs scan store f now).summary.failed =
      ((newListingsOf scan store).filter (fun l => (f l).isNone)).length ∧
    (syncNewCultureBeJobs scan store f now).summary.failedUids =
      ((newListingsOf scan store).filter (fun l => (f l).isNone)).map
        (fun l => l.uid) ∧
    (syncNewCultureBeJobs scan store f now).summary.inserted =
      ((newListingsOf scan store).filter (fun l => (f l).isSome)).length ∧
    (syncNewCultureBeJobs scan store f now).summary.inserted +
        (syncNewCultureBeJobs scan store f now).summary.failed =
      (newListingsOf scan store).length ∧
    (syncNewCultureBeJobs scan store f now).syncState = some now := by
  have hfailed : (syncNewCultureBeJobs scan store f now).summary.failed =
      ((newListingsOf scan store).filter (fun l => (f l).isNone)).length := by
    show (failedUidsOf scan store f).length = _
    unfold failedUidsOf
    rw [List.length_map]
  have hinserted : (syncNewCultureBeJobs scan store f now).summary.inserted =
      ((newListingsOf scan store).filter (fun l => (f l).isSome)).length := by
    show (insertedRowsOf scan store f).length = _
    rw [insertedRows_eq_jobsToInsert]
    exact length_filterMap_fetch f (newListingsOf scan store)
  refine ⟨rfl, hfailed, rfl, hinserted, ?_, rfl⟩
  rw [hfailed, hinserted]
  have hcong : (newListingsOf scan store).filter (fun l => (f l).isNone) =
      (newListingsOf scan store).filter (fun l => !(f l).isSome) := by
    apply List.filter_congr
    intro l _
    cases f l <;> rfl
  rw [hcong]
  exact length_filter_add_filter_not (fun l => (f l).isSome) (newListingsOf scan store)

/-- C2: sync idempotence.  Running `syncNewCultureBeJobs` twice with the same
scanned listing rows and the same (deterministic) detail-fetch outcomes gives
a second run with `inserted = 0`, `removed = 0`, and a persisted store equal
to the store after the first run. -/
theorem sync_idempotent (scan : List ListingJob) (store : List JobRecord)
    (f : ListingJob → Option String) (now1 now2 : String) :
    (syncNewCultureBeJobs scan (syncNewCultureBeJobs scan store f now1).store f
        now2).summary.inserted = 0 ∧
    (syncNewCultureBeJobs scan (syncNewCultureBeJobs scan store f now1).store f
        now2).summary.removed = 0 ∧
    (syncNewCultureBeJobs scan (syncNewCultureBeJobs scan store f now1).store f
        now2).store = (syncNewCultureBeJobs scan store f now1).store := by
  have hS1 : (syncNewCultureBeJobs scan store f now1).store =
      storeAfterSync scan store f := rfl
  rw [hS1]
  have hfail : ∀ l ∈ newListingsOf scan (storeAfterSync scan store f), f l = none := by
    intro l hl
    cases hfl : f l with
    | none => rfl
    | some d =>
      have hded := newListings_mem_dedup hl
      have hsome : (f l).isSome = true := by rw [hfl]; rfl
      exact absurd (scanned_success_uid_mem_store hded hsome)
        (newListings_uid_not_persisted hl)
  have hins : jobsToInsertOf scan (storeAfterSync scan store f) f = [] := by
    unfold jobsToInsertOf
    rw [List.filterMap_eq_nil_iff.mpr (fun l hl => by rw [hfail l hl]; rfl)]
  have hinsrows : insertedRowsOf scan (storeAfterSync scan store f) f = [] := by
    rw [insertedRows_eq_jobsToInsert, hins]
  have hrem : removedUidsOf scan (storeAfterSync scan store f) = [] := by
    by_cases hempty : (dedupByUid scan).isEmpty
    · unfold removedUidsOf
      rw [if_pos hempty]
    · unfold removedUidsOf
      rw [if_neg hempty]
      rw [List.filter_eq_nil_iff.mpr ?_]
      intro u hu
      have humem : u ∈ (storeAfterSync scan store f).map JobRecord.uid := by
        simpa using mem_uidSetOf.mp hu
      obtain ⟨j, hj, hju⟩ := List.mem_map.mp humem
      have hsc := store_uid_mem_scan hempty hj
      rw [hju] at hsc
      rw [(contains_iff (listingUidsOf scan) u).mpr hsc]
      simp
  refine ⟨?_, ?_, ?_⟩
  · show (insertedRowsOf scan (storeAfterSync scan store f) f).length = 0
    rw [hinsrows]
    rfl
  · show deleteCountOf scan (storeAfterSync scan store f) f = 0
    unfold deleteCountOf
    rw [hinsrows, List.append_nil, hrem]
    rw [List.filter_eq_nil_iff.mpr (fun j _ => by
      rw [show ([] : List Nat).contains j.uid = false from rfl]
      simp)]
    rfl
  · show storeAfterSync scan (storeAfterSync scan store f) f = storeAfterSync scan store f
    rw [show storeAfterSync scan (storeAfterSync scan store f) f =
        (storeAfterSync scan store f ++
            insertedRowsOf scan (storeAfterSync scan store f) f).filter
          (fun j =>
            !(removedUidsOf scan (storeAfterSync scan store f)).contains j.uid)
      from rfl]
    rw [hinsrows, hrem, List.append_nil]
    exact List.filter_eq_self.mpr (fun j _ => rfl)

/-! ### Date lemmas (C5) -/

lemma isDigit_toNat_bounds {c : Char} (h : c.isDigit = true) :
    48 ≤ c.toNat ∧ c.toNat ≤ 57 := by
  unfold Char.isDigit at h
  rw [Bool.and_eq_true] at h
  obtain ⟨h1, h2⟩ := h
  rw [decide_eq_true_eq, ge_iff_le] at h1
  rw [decide_eq_true_eq] at h2
  exact ⟨h1, h2⟩

lemma digitVal_le_9 {c : Char} (h : c.isDigit = true) : digitVal c ≤ 9 := by
  obtain ⟨h1, h2⟩ := isDigit_toNat_bounds h
  show c.toNat - 48 ≤ 9
  omega

lemma digitChar_digitVal {c : Char} (h : c.isDigit = true) :
    digitChar (digitVal c) = c := by
  obtain ⟨h1, _⟩ := isDigit_toNat_bounds h
  show Char.ofNat ('0'.toNat + (c.toNat - '0'.toNat)) = c
  have he : '0'.toNat + (c.toNat - '0'.toNat) = c.toNat := by
    show 48 + (c.toNat - 48) = c.toNat
    omega
  rw [he, Char.ofNat_toNat]

lemma format_data (y m d : Nat) :
    (formatDDMMYYYY (y, m, d)).data =
      [digitChar (d / 10 % 10), digitChar (d % 10), '-',
       digitChar (m / 10 % 10), digitChar (m % 10), '-',
       digitChar (y / 1000 % 10), digitChar (y / 100 % 10),
       digitChar (y / 10 % 10), digitChar (y % 10)] := by
  show (pad2 d ++ "-" ++ pad2 m ++ "-" ++ pad4 y).data = _
  rw [String.data_append, String.data_append, String.data_append,
    String.data_append]
  rfl

/-- Inversion of the regex-and-`parseInt` phase: a character list the match
accepts with components `(y, m, d)` is exactly the zero-padded `DD-MM-YYYY`
rendering of those components. -/
lemma parseRawAux_inv :
    ∀ (cs : List Char) (y m d : Nat), parseRawAux cs = some (y, m, d) →
      cs = (formatDDMMYYYY (y, m, d)).data := by
  intro cs y m d h
  unfold parseRawAux at h
  split at h
  · rename_i d1 d2 s1 m1 m2 s2 y1 y2 y3 y4
    split at h
    · rename_i hcond
      simp only [Bool.and_eq_true, decide_eq_true_eq] at hcond
      obtain ⟨⟨⟨⟨⟨⟨⟨⟨⟨hd1, hd2⟩, hs1⟩, hm1⟩, hm2⟩, hs2⟩, hy1⟩, hy2⟩, hy3⟩, hy4⟩ :=
        hcond
      have hcomp := Option.some.inj h
      simp only [Prod.mk.injEq] at hcomp
      obtain ⟨hy, hm, hd⟩ := hcomp
      subst hs1 hs2 hy hm hd
      have bd1 := digitVal_le_9 hd1
      have bd2 := digitVal_le_9 hd2
      have bm1 := digitVal_le_9 hm1
      have bm2 := digitVal_le_9 hm2
      have by1 := digitVal_le_9 hy1
      have by2 := digitVal_le_9 hy2
      have by3 := digitVal_le_9 hy3
      have by4 := digitVal_le_9 hy4
      rw [format_data]
      have e1 : (10 * digitVal d1 + digitVal d2) / 10 % 10 = digitVal d1 := by
        omega
      have e2 : (10 * digitVal d1 + digitVal d2) % 10 = digitVal d2 := by
        omega
      have e3 : (10 * digitVal m1 + digitVal m2) / 10 % 10 = digitVal m1 := by
        omega
      have e4 : (10 * digitVal m1 + digitVal m2) % 10 = digitVal m2 := by
        omega
      have e5 : (1000 * digitVal y1 + 100 * digitVal y2 + 10 * digitVal y3 +
          digitVal y4) / 1000 % 10 = digitVal y1 := by
        omega
      have e6 : (1000 * digitVal y1 + 100 * digitVal y2 + 10 * digitVal y3 +
          digitVal y4) / 100 % 10 = digitVal y2 := by
        omega
      have e7 : (1000 * digitVal y1 + 100 * digitVal y2 + 10 * digitVal y3 +
          digitVal y4) / 10 % 10 = digitVal y3 := by
        omega
      have e8 : (1000 * digitVal y1 + 100 * digitVal y2 + 10 * digitVal y3 +
          digitVal y4) % 10 = digitVal y4 := by
        omega
      rw [e1, e2, e3, e4, e5, e6, e7, e8, digitChar_digitVal hd1,
        digitChar_digitVal hd2, digitChar_digitVal hm1, digitChar_digitVal hm2,
        digitChar_digitVal hy1, digitChar_digitVal hy2, digitChar_digitVal hy3,
        digitChar_digitVal hy4]
    · exact Option.noConfusion h
  · exact Option.noConfusion h

/-- Inversion at the string level: an input the regex phase accepts with
components `(y, m, d)` normalizes to exactly the `DD-MM-YYYY` rendering of
those components. -/
lemma parseRawComponents_inv {s : String} {y m d : Nat}
    (h : parseRawComponents s = some (y, m, d)) :
    normalizeText (some s) = formatDDMMYYYY (y, m, d) := by
  unfold parseRawComponents at h
  have hdata := parseRawAux_inv _ _ _ _ h
  cases hnorm : normalizeText (some s) with
  | mk data =>
    cases hfmt : formatDDMMYYYY (y, m, d) with
    | mk data' =>
      rw [hnorm, hfmt] at hdata
      exact congrArg String.mk hdata

/-- C5: the claim fails on the code.  `"31-04-2024"` satisfies the spec's
validity rule (regex match, day in 1-31, month in 1-12, year ≥ 1900) and
parses non-null, but `Date.UTC` rolls the out-of-range day over into May, so
reformatting yields `"01-05-2024"`, a different calendar day than the input. -/
theorem parseCultureBeDate_rollover_counterexample :
    parseCultureBeDate "31-04-2024" = some (2024, 5, 1) ∧
    formatDDMMYYYY (2024, 5, 1) = "01-05-2024" ∧
    formatDDMMYYYY (2024, 5, 1) ≠ normalizeText (some "31-04-2024") :=
  ⟨rfl, rfl, by decide⟩

/-- C5 (amended): for every input string, if the strict regex accepts it with
components `(day, month, year)` satisfying the rule (day 1-31, month 1-12,
year ≥ 1900), `parseCultureBeDate` returns a non-null UTC-midnight date, and
whenever the components denote an actual calendar day (day not exceeding the
month's length) that date is exactly the input's calendar day, so reformatting
as `DD-MM-YYYY` reproduces the (normalized) input; inputs whose components
violate the rule, and inputs the regex does not match, return `null`. -/
theorem parseCultureBeDate_round_trip :
    (∀ (s : String) (y m d : Nat), parseRawComponents s = some (y, m, d) →
      1 ≤ d → d ≤ 31 → 1 ≤ m → m ≤ 12 → 1900 ≤ y →
      parseCultureBeDate s = some (dateUTC y m d) ∧
      (d ≤ daysInMonth y m →
        parseCultureBeDate s = some (y, m, d) ∧
        formatDDMMYYYY (y, m, d) = normalizeText (some s))) ∧
    (∀ (s : String) (y m d : Nat), parseRawComponents s = some (y, m, d) →
      (d < 1 ∨ 31 < d ∨ m < 1 ∨ 12 < m ∨ y < 1900) →
      parseCultureBeDate s = none) ∧
    (∀ s : String, parseRawComponents s = none → parseCultureBeDate s = none) := by
  refine ⟨?_, ?_, ?_⟩
  · intro s y m d h hd1 hd2 hm1 hm2 hy1
    have hsome : parseCultureBeDate s = some (dateUTC y m d) := by
      unfold parseCultureBeDate
      rw [h, Option.some_bind]
      rw [if_neg (by
        simp only [Bool.or_eq_true, decide_eq_true_eq]
        push_neg
        omega)]
    refine ⟨hsome, fun hcal => ⟨?_, ?_⟩⟩
    · rw [hsome]
      unfold dateUTC
      rw [if_pos hcal]
    · exact (parseRawComponents_inv h).symm
  · intro s y m d h hbad
    unfold parseCultureBeDate
    rw [h, Option.some_bind]
    rw [if_pos (by
      simp only [Bool.or_eq_true, decide_eq_true_eq]
      omega)]
  · intro s h
    unfold parseCultureBeDate
    rw [h]
    rfl

/-- C5 witness: a concrete actual calendar day round-trips, a rule-valid but
rolled-over day still parses non-null, an out-of-range month parses to
`null`, and a non-matching string parses to `null`. -/
theorem parseCultureBeDate_round_trip_witness :
    (parseCultureBeDate "07-03-2024" = some (2024, 3, 7) ∧
      formatDDMMYYYY (2024, 3, 7) = normalizeText (some "07-03-2024")) ∧
    parseCultureBeDate "31-04-2024" = some (dateUTC 2024 4 31) ∧
    parseCultureBeDate "31-13-2024" = none ∧
    parseCultureBeDate "xx" = none :=
  ⟨(parseCultureBeDate_round_trip.1 "07-03-2024" 2024 3 7 (by decide) (by decide)
      (by decide) (by decide) (by decide) (by decide)).2 (by decide),
    (parseCultureBeDate_round_trip.1 "31-04-2024" 2024 4 31 (by decide)
      (by decide) (by decide) (by decide) (by decide) (by decide)).1,
    parseCultureBeDate_round_trip.2.1 "31-13-2024" 2024 13 31 (by decide)
      (by decide),
    parseCultureBeDate_round_trip.2.2 "xx" (by decide)⟩

/-! ### Worker-pool lemmas (C9) -/

/-- Invariant of the worker pool: the cursor never exceeds the item count, the
slot arrays keep their sizes, every held index was grabbed (is below the
cursor), the mapper has been called exactly once per grabbed index, and every
grabbed index is either still being processed by some worker or already holds
its mapped result. -/
structure PoolInv {T R : Type} (items : List T) (f : T → R) (c : Nat)
    (st : PoolState R) : Prop where
  hres_len : st.results.length = items.length
  hcalls_len : st.calls.length = items.length
  hhold_len : st.holding.length = min c items.length
  hidx : st.idx ≤ items.length
  hheld : ∀ (k i : Nat), st.holding[k]? = some (some i) → i < st.idx
  hcalls : ∀ i, i < items.length →
    st.calls[i]? = some (if i < st.idx then 1 else 0)
  hres : ∀ i, i < st.idx →
    (∃ k : Nat, st.holding[k]? = some (some i)) ∨
    (∃ x, items[i]? = some x ∧ st.results[i]? = some (some (f x)))

lemma poolInit_inv {T R : Type} (items : List T) (f : T → R) (c : Nat) :
    PoolInv items f c (poolInit R items.length c) := by
  refine ⟨?_, ?_, ?_, ?_, ?_, ?_, ?_⟩
  · exact List.length_replicate _ _
  · exact List.length_replicate _ _
  · exact List.length_replicate _ _
  · exact Nat.zero_le _
  · intro k i h
    have h' : (List.replicate (min c items.length) (none : Option Nat))[k]? =
        some (some i) := h
    rw [List.getElem?_replicate] at h'
    split at h'
    · exact absurd (Option.some.inj h') (by simp)
    · exact Option.noConfusion h'
  · intro i hi
    show (List.replicate items.length 0)[i]? = _
    rw [List.getElem?_replicate, if_pos hi]
    have h0 : ¬ i < (poolInit R items.length c).idx := by
      intro hlt
      exact absurd hlt (by simp [poolInit])
    rw [if_neg h0]
  · intro i hi
    exact absurd hi (by simp [poolInit])

lemma poolStep_inv {T R : Type} {items : List T} {f : T → R} {c k : Nat}
    {st st' : PoolState R} (inv : PoolInv items f c st)
    (hstep : poolStep items f k st = some st') : PoolInv items f c st' := by
  unfold poolStep at hstep
  split at hstep
  · exact Option.noConfusion hstep
  · rename_i i hk
    split at hstep
    · rename_i x hx
      obtain rfl : _ = st' := Option.some.inj hstep
      have hkl : k < st.holding.length := by
        by_contra hkl
        rw [List.getElem?_eq_none (by omega)] at hk
        exact Option.noConfusion hk
      have hi : i < st.idx := inv.hheld k i hk
      refine ⟨?_, ?_, ?_, ?_, ?_, ?_, ?_⟩
      · rw [List.length_set]
        exact inv.hres_len
      · exact inv.hcalls_len
      · rw [List.length_set]
        exact inv.hhold_len
      · exact inv.hidx
      · intro k' i' h
        show i' < st.idx
        rcases eq_or_ne k k' with rfl | hkk
        · rw [List.getElem?_set, if_pos rfl, if_pos hkl] at h
          exact absurd (Option.some.inj h) (by simp)
        · rw [List.getElem?_set, if_neg hkk] at h
          exact inv.hheld k' i' h
      · exact inv.hcalls
      · intro i' hi'
        rcases eq_or_ne i i' with rfl | hii
        · refine Or.inr ⟨x, hx, ?_⟩
          rw [List.getElem?_set, if_pos rfl,
            if_pos (by rw [inv.hres_len]; exact lt_of_lt_of_le hi inv.hidx)]
        · rcases inv.hres i' hi' with ⟨k', hk'⟩ | ⟨x', hx', hr'⟩
          · rcases eq_or_ne k k' with rfl | hkk
            · rw [hk] at hk'
              exact absurd (Option.some.inj (Option.some.inj hk')) hii
            · exact Or.inl ⟨k', by rw [List.getElem?_set, if_neg hkk]; exact hk'⟩
          · refine Or.inr ⟨x', hx', ?_⟩
            rw [List.getElem?_set, if_neg hii]
            exact hr'
    · exact Option.noConfusion hstep
  · rename_i hk
    split at hstep
    · rename_i hlt
      obtain rfl : _ = st' := Option.some.inj hstep
      have hkl : k < st.holding.length := by
        by_contra hkl
        rw [List.getElem?_eq_none (by omega)] at hk
        exact Option.noConfusion hk
      refine ⟨?_, ?_, ?_, ?_, ?_, ?_, ?_⟩
      · exact inv.hres_len
      · rw [List.length_set]
        exact inv.hcalls_len
      · rw [List.length_set]
        exact inv.hhold_len
      · exact Nat.succ_le_of_lt hlt
      · intro k' i' h
        show i' < st.idx + 1
        rcases eq_or_ne k k' with rfl | hkk
        · rw [List.getElem?_set, if_pos rfl, if_pos hkl] at h
          obtain rfl : st.idx = i' := Option.some.inj (Option.some.inj h)
          exact Nat.lt_succ_self st.idx
        · rw [List.getElem?_set, if_neg hkk] at h
          exact Nat.lt_succ_of_lt (inv.hheld k' i' h)
      · intro i hi
        show (st.calls.set st.idx ((st.calls[st.idx]?.getD 0) + 1))[i]? = _
        have hclen : st.idx < st.calls.length := by
          rw [inv.hcalls_len]
          exact hlt
        rcases eq_or_ne st.idx i with rfl | hii
        · rw [List.getElem?_set, if_pos rfl, if_pos hclen,
            inv.hcalls st.idx hlt]
          simp
        · rw [List.getElem?_set, if_neg hii, inv.hcalls i hi]
          have heq01 : (if i < st.idx then 1 else 0) =
              (if i < st.idx + 1 then 1 else 0) := by
            split_ifs <;> omega
          rw [heq01]
      · intro i' hi'
        have hi2 : i' < st.idx + 1 := hi'
        rcases eq_or_ne i' st.idx with rfl | hii
        · refine Or.inl ⟨k, ?_⟩
          rw [List.getElem?_set, if_pos rfl, if_pos hkl]
        · have hi'lt : i' < st.idx := by omega
          rcases inv.hres i' hi'lt with ⟨k', hk'⟩ | hr
          · rcases eq_or_ne k k' with rfl | hkk
            · rw [hk] at hk'
              exact absurd (Option.some.inj hk') (by simp)
            · exact Or.inl ⟨k', by rw [List.getElem?_set, if_neg hkk]; exact hk'⟩
          · exact Or.inr hr
    · exact Option.noConfusion hstep

lemma poolRun_inv {T R : Type} (items : List T) (f : T → R) (c : Nat)
    (sched : List Nat) : PoolInv items f c (poolRun items f c sched) := by
  unfold poolRun
  have hgen : ∀ (sch : List Nat) (st : PoolState R), PoolInv items f c st →
      PoolInv items f c (sch.foldl (fun s k => (poolStep items f k s).getD s) st) := by
    intro sch
    induction sch with
    | nil =>
      intro st h
      exact h
    | cons k rest ih =>
      intro st h
      rw [List.foldl_cons]
      apply ih
      cases hs : poolStep items f k st with
      | none => exact h
      | some st' => exact poolStep_inv h hs
  exact hgen sched _ (poolInit_inv items f c)

lemma poolFinal_spec {T R : Type} {items : List T} {f : T → R} {c : Nat}
    {st : PoolState R} (inv : PoolInv items f c st)
    (hfin : poolFinal items.length st = true) :
    st.results = items.map (fun x => some (f x)) ∧
      st.calls = List.replicate items.length 1 := by
  unfold poolFinal at hfin
  rw [Bool.and_eq_true] at hfin
  obtain ⟨hidxb, hnone⟩ := hfin
  have hidxeq : st.idx = items.length :=
    le_antisymm inv.hidx (of_decide_eq_true hidxb)
  constructor
  · apply List.ext_getElem?
    intro n
    by_cases hn : n < items.length
    · rcases inv.hres n (by rw [hidxeq]; exact hn) with ⟨k, hk⟩ | ⟨x, hx, hr⟩
      · exfalso
        have hmem : (some n : Option Nat) ∈ st.holding := List.getElem?_mem hk
        have := List.all_eq_true.mp hnone (some n) hmem
        simp at this
      · rw [hr, List.getElem?_map, hx]
        rfl
    · rw [List.getElem?_eq_none (by rw [inv.hres_len]; omega),
        List.getElem?_eq_none (by rw [List.length_map]; omega)]
  · apply List.ext_getElem?
    intro n
    by_cases hn : n < items.length
    · rw [inv.hcalls n hn, List.getElem?_replicate, if_pos hn,
        if_pos (by rw [hidxeq]; exact hn)]
    · rw [List.getElem?_eq_none (by rw [inv.hcalls_len]; omega),
        List.getElem?_eq_none (by rw [List.length_replicate]; omega)]

/-- C9: bounded-concurrency map equivalence.  For every item list, bound and
deterministic mapper, any schedule of worker steps that drives the pool of
`min(concurrency, items.length)` workers to a final state (cursor exhausted,
all workers idle) leaves `results` equal to the sequential map of the mapper
over the items in original index order, with the mapper called exactly once
per item; and under every schedule, at most `concurrency` items are ever in
flight simultaneously. -/
theorem mapWithConcurrency_pool_correct {T R : Type} (items : List T)
    (f : T → R) (c : Nat) (sched : List Nat)
    (hfin : poolFinal items.length (poolRun items f c sched) = true) :
    (poolRun items f c sched).results = items.map (fun x => some (f x)) ∧
    (poolRun items f c sched).calls = List.replicate items.length 1 ∧
    (∀ sched' : List Nat, inFlight (poolRun items f c sched') ≤ c) := by
  obtain ⟨hres, hcalls⟩ := poolFinal_spec (poolRun_inv items f c sched) hfin
  refine ⟨hres, hcalls, ?_⟩
  intro sched'
  have hlen := (poolRun_inv items f c sched').hhold_len
  calc inFlight (poolRun items f c sched')
      ≤ (poolRun items f c sched').holding.length := List.length_filter_le _ _
    _ = min c items.length := hlen
    _ ≤ c := Nat.min_le_left _ _

/-- C9 witness: three items, bound 2, and a concrete interleaved schedule
(worker 0 grabs, worker 1 grabs, worker 0 stores and grabs the last item,
worker 1 stores, worker 0 stores) reaching a final state with the sequential
map as result and one mapper call per item. -/
theorem mapWithConcurrency_pool_witness :
    poolFinal ([10, 20, 30] : List Nat).length
        (poolRun [10, 20, 30] (fun x => x + 1) 2 [0, 1, 0, 0, 1, 0]) = true ∧
    (poolRun [10, 20, 30] (fun x => x + 1) 2 [0, 1, 0, 0, 1, 0]).results =
      [some 11, some 21, some 31] ∧
    (poolRun [10, 20, 30] (fun x => x + 1) 2 [0, 1, 0, 0, 1, 0]).calls =
      [1, 1, 1] :=
  ⟨by decide,
    ((mapWithConcurrency_pool_correct [10, 20, 30] (fun x => x + 1) 2
        [0, 1, 0, 0, 1, 0] (by decide)).1).trans (by decide),
    ((mapWithConcurrency_pool_correct [10, 20, 30] (fun x => x + 1) 2
        [0, 1, 0, 0, 1, 0] (by decide)).2.1).trans (by decide)⟩

end CultureBe
